import Mathlib

/-!
Shallow embedding of `src/base64.ts` (class `Base64`): a Base64 codec with
two alphabet variants (Standard, UrlSafe), optional padding and optional
line wrapping on encode.

Modelling conventions:
* JS strings become `List Char`; `Uint8Array` becomes `List Nat`, with the
  typed-array store semantics (`% 256`) applied where an element is read.
* JS bitwise ops on the small non-negative values that occur here are exact:
  `x & 0x3f` is `x % 64`, `x & 0xff` is `x % 256`, `x >> k` is `x / 2 ^ k`,
  and `|` of disjoint bit ranges is `+`.
* Thrown exceptions become `Except DecodeError`; the source throws a single
  `Error('Invalid Base64 string length.')`, modelled as `DecodeError.LengthError`.
-/

inductive Base64Variant where
  | Standard
  | UrlSafe
deriving DecidableEq

/-- `Base64Options` with the source's defaults
(`variant = Standard`, `padding = true`, `lineLength = 0`). -/
structure Base64Options where
  variant : Base64Variant := Base64Variant.Standard
  padding : Bool := true
  lineLength : Nat := 0

namespace Base64

def STANDARD_CHARS : List Char :=
  "ABCDEFGHIJKLMNOPQRSTUVWXYZabcdefghijklmnopqrstuvwxyz0123456789+/".data

def URLSAFE_CHARS : List Char :=
  "ABCDEFGHIJKLMNOPQRSTUVWXYZabcdefghijklmnopqrstuvwxyz0123456789-_".data

/-- `Base64.getChars`. -/
def getChars (variant : Base64Variant) : List Char :=
  match variant with
  | Base64Variant.UrlSafe => URLSAFE_CHARS
  | Base64Variant.Standard => STANDARD_CHARS

/-- Helper for `createLookup`: first index of `c` in the list, starting at `i`.
The source fills a dictionary with `lookup[chars[i]] = i` for increasing `i`;
since the alphabets are duplicate-free (proved below), writing each key once
at its first index builds the same map. -/
def lookupIn : List Char → Nat → Char → Option Nat
  | [], _, _ => none
  | a :: rest, i, c => if a = c then some i else lookupIn rest (i + 1) c

/-- `Base64.createLookup`: symbol → 6-bit value; absent symbols map to `none`
(JS `undefined`). -/
def createLookup (variant : Base64Variant) (c : Char) : Option Nat :=
  lookupIn (getChars variant) 0 c

/-- The four alphabet symbols the encode loop emits for one 24-bit group
(`chars[(combined >> 18) & 0x3f]` and the three following lines). The index
is always `< 64`, so the `getD` default is never used. -/
def encodeGroup (chars : List Char) (combined : Nat) : List Char :=
  [chars.getD (combined / 2 ^ 18 % 64) 'A',
   chars.getD (combined / 2 ^ 12 % 64) 'A',
   chars.getD (combined / 2 ^ 6 % 64) 'A',
   chars.getD (combined % 64) 'A']

/-- The body of `Base64.encode` after destructuring the options: the
`for (i = 0; i < len - 2; i += 3)` loop consumes three bytes per step
(the guard holds exactly when at least 3 bytes remain), threading the
accumulated output `acc` (the source's growing `base64` string) and
`lineCharCount`; the two `if (i < len)` tail shapes are the 1-byte and
2-byte remainders. In the tail, `base64[base64.length - 1] !== '\n'` reads
the last character of the whole string built so far, i.e. of `acc1`. -/
def encodeAux (chars : List Char) (padding : Bool) (lineLength : Nat) :
    List Nat → List Char → Nat → List Char
  | b0 :: b1 :: b2 :: rest, acc, lineCharCount =>
    -- combined = (bytes[i] << 16) | (bytes[i+1] << 8) | bytes[i+2]
    let combined := b0 % 256 * 2 ^ 16 + b1 % 256 * 2 ^ 8 + b2 % 256
    let acc1 := acc ++ encodeGroup chars combined
    if 0 < lineLength then
      if lineLength ≤ lineCharCount + 4 then
        encodeAux chars padding lineLength rest (acc1 ++ ['\r', '\n']) 0
      else
        encodeAux chars padding lineLength rest acc1 (lineCharCount + 4)
    else
      encodeAux chars padding lineLength rest acc1 lineCharCount
  | [b0], acc, _ =>
    -- remainingBytes = 1: combined = bytes[i] << 16
    let combined := b0 % 256 * 2 ^ 16
    let acc1 := acc ++
      ([chars.getD (combined / 2 ^ 18 % 64) 'A',
        chars.getD (combined / 2 ^ 12 % 64) 'A'] ++
       (if padding then ['='] else []) ++ (if padding then ['='] else []))
    if 0 < lineLength ∧ acc1.getLast? ≠ some '\n' then acc1 ++ ['\r', '\n'] else acc1
  | [b0, b1], acc, _ =>
    -- remainingBytes = 2: combined = (bytes[i] << 16) | (bytes[i+1] << 8)
    let combined := b0 % 256 * 2 ^ 16 + b1 % 256 * 2 ^ 8
    let acc1 := acc ++
      ([chars.getD (combined / 2 ^ 18 % 64) 'A',
        chars.getD (combined / 2 ^ 12 % 64) 'A',
        chars.getD (combined / 2 ^ 6 % 64) 'A'] ++
       (if padding then ['='] else []))
    if 0 < lineLength ∧ acc1.getLast? ≠ some '\n' then acc1 ++ ['\r', '\n'] else acc1
  | [], acc, _ => acc

/-- `Base64.encode`. -/
def encode (bytes : List Nat) (options : Base64Options) : List Char :=
  encodeAux (getChars options.variant) options.padding options.lineLength bytes [] 0

/-- The decode sanitization step, `base64.replace(regex, '')` with
`/[^A-Za-z0-9+/=]/g` for Standard and `/[^A-Za-z0-9\-_]/g` for UrlSafe:
`keepChar variant c` holds exactly when `c` survives the replacement.
Note the UrlSafe class does not contain `=`. -/
def keepChar (variant : Base64Variant) (c : Char) : Bool :=
  match variant with
  | Base64Variant.Standard =>
      ('A' ≤ c && c ≤ 'Z') || ('a' ≤ c && c ≤ 'z') || ('0' ≤ c && c ≤ '9') ||
        c == '+' || c == '/' || c == '='
  | Base64Variant.UrlSafe =>
      ('A' ≤ c && c ≤ 'Z') || ('a' ≤ c && c ≤ 'z') || ('0' ≤ c && c ≤ '9') ||
        c == '-' || c == '_'

/-- The single error the codec can raise:
`throw new Error('Invalid Base64 string length.')`. -/
inductive DecodeError where
  | LengthError
deriving DecidableEq

/-- Decidable equality for `Except`, so that `decode` can be evaluated on
concrete inputs. -/
instance {ε α : Type} [DecidableEq ε] [DecidableEq α] : DecidableEq (Except ε α) :=
  fun x y =>
    match x, y with
    | Except.error a, Except.error b =>
      match decEq a b with
      | isTrue h => isTrue (h ▸ rfl)
      | isFalse h => isFalse fun hc => h (by injection hc)
    | Except.ok a, Except.ok b =>
      match decEq a b with
      | isTrue h => isTrue (h ▸ rfl)
      | isFalse h => isFalse fun hc => h (by injection hc)
    | Except.error _, Except.ok _ => isFalse fun hc => Except.noConfusion hc
    | Except.ok _, Except.error _ => isFalse fun hc => Except.noConfusion hc

/-- `lookup[base64[i++]] ?? 0`: a character past the end of the string
(JS `undefined` index) or absent from the lookup contributes value 0. -/
def lookupVal (lookup : Char → Option Nat) (oc : Option Char) : Nat :=
  match oc with
  | none => 0
  | some c => (lookup c).getD 0

/-- The decode loop: consume four characters per step, reassemble
`v0<<18 | v1<<12 | v2<<6 | v3`, and emit up to three bytes, stopping once
`remaining` (the source's `outputLen - byteIndex`) is exhausted. -/
def decodeGroups (lookup : Char → Option Nat) : List Char → Nat → List Nat
  | [], _ => []
  | c0 :: c1 :: c2 :: c3 :: cs, remaining =>
    -- a full iteration: all four reads `base64[i++]` are in range
    let combined :=
      lookupVal lookup (some c0) * 2 ^ 18 + lookupVal lookup (some c1) * 2 ^ 12 +
      lookupVal lookup (some c2) * 2 ^ 6 + lookupVal lookup (some c3)
    let out := [combined / 2 ^ 16 % 256, combined / 2 ^ 8 % 256, combined % 256].take remaining
    out ++ decodeGroups lookup cs (remaining - out.length)
  | cs, remaining =>
    -- the final short iteration (1-3 characters left): reads past the end
    -- yield `undefined`, i.e. `none`; afterwards `i ≥ len` ends the loop
    let combined :=
      lookupVal lookup cs.head? * 2 ^ 18 +
      lookupVal lookup (cs.drop 1).head? * 2 ^ 12 +
      lookupVal lookup (cs.drop 2).head? * 2 ^ 6 +
      lookupVal lookup (cs.drop 3).head?
    let out := [combined / 2 ^ 16 % 256, combined / 2 ^ 8 % 256, combined % 256].take remaining
    out

/-- `Base64.decode`. `(len * 3) >> 2` is `len * 3 / 4`; the subtraction of
`paddingChars` cannot underflow, since `paddingChars > 0` forces
`padding = true`, hence `len % 4 = 0` past the length check, and `len ≥ 1`
from the `=` suffix, so `len ≥ 4` and `len * 3 / 4 ≥ 3 ≥ paddingChars`. -/
def decode (input : List Char) (options : Base64Options) : Except DecodeError (List Nat) :=
  let lookup := createLookup options.variant
  let sanitized := input.filter (keepChar options.variant)
  if options.padding ∧ sanitized.length % 4 ≠ 0 then
    Except.error DecodeError.LengthError
  else
    let len := sanitized.length
    let paddingChars : Nat :=
      if options.padding then
        if List.isSuffixOf ['=', '='] sanitized then 2
        else if List.isSuffixOf ['='] sanitized then 1 else 0
      else 0
    let outputLen := len * 3 / 4 - paddingChars
    Except.ok (decodeGroups lookup sanitized outputLen)

/-! Helper lemmas about the encode loop. -/

/-- The accumulator of `encodeAux` is a prefix of its result: the loop only
ever appends to the output string. -/
theorem encodeAux_append (chars : List Char) (padding : Bool) (lineLength : Nat) :
    ∀ (bytes : List Nat) (acc : List Char) (cnt : Nat),
      encodeAux chars padding lineLength bytes acc cnt =
        acc ++ encodeAux chars padding lineLength bytes [] cnt
  | [], acc, cnt => by simp [encodeAux]
  | [b0], acc, cnt => by
      simp only [encodeAux, List.nil_append]
      rw [List.getLast?_append_of_ne_nil _ (by simp)]
      split_ifs <;> simp [List.append_assoc]
  | [b0, b1], acc, cnt => by
      simp only [encodeAux, List.nil_append]
      rw [List.getLast?_append_of_ne_nil _ (by simp)]
      split_ifs <;> simp [List.append_assoc]
  | b0 :: b1 :: b2 :: rest, acc, cnt => by
      simp only [encodeAux, List.nil_append]
      split_ifs with h1 h2
      · rw [encodeAux_append chars padding lineLength rest
              (acc ++ encodeGroup chars (b0 % 256 * 2 ^ 16 + b1 % 256 * 2 ^ 8 + b2 % 256)
                ++ ['\r', '\n']) 0,
            encodeAux_append chars padding lineLength rest
              (encodeGroup chars (b0 % 256 * 2 ^ 16 + b1 % 256 * 2 ^ 8 + b2 % 256)
                ++ ['\r', '\n']) 0]
        simp [List.append_assoc]
      · rw [encodeAux_append chars padding lineLength rest
              (acc ++ encodeGroup chars (b0 % 256 * 2 ^ 16 + b1 % 256 * 2 ^ 8 + b2 % 256))
              (cnt + 4),
            encodeAux_append chars padding lineLength rest
              (encodeGroup chars (b0 % 256 * 2 ^ 16 + b1 % 256 * 2 ^ 8 + b2 % 256))
              (cnt + 4)]
        simp [List.append_assoc]
      · rw [encodeAux_append chars padding lineLength rest
              (acc ++ encodeGroup chars (b0 % 256 * 2 ^ 16 + b1 % 256 * 2 ^ 8 + b2 % 256))
              cnt,
            encodeAux_append chars padding lineLength rest
              (encodeGroup chars (b0 % 256 * 2 ^ 16 + b1 % 256 * 2 ^ 8 + b2 % 256))
              cnt]
        simp [List.append_assoc]

/-- The encoding of a nonempty byte list is nonempty. -/
theorem encodeAux_ne_nil (chars : List Char) (padding : Bool) (lineLength : Nat) :
    ∀ (bytes : List Nat) (acc : List Char) (cnt : Nat), bytes ≠ [] →
      encodeAux chars padding lineLength bytes acc cnt ≠ []
  | [], _, _, h => absurd rfl h
  | [b0], acc, cnt, _ => by
      simp only [encodeAux]
      split_ifs <;> simp
  | [b0, b1], acc, cnt, _ => by
      simp only [encodeAux]
      split_ifs <;> simp
  | b0 :: b1 :: b2 :: rest, acc, cnt, _ => by
      simp only [encodeAux]
      rcases rest with _ | ⟨r, rs⟩
      · split_ifs <;> simp [encodeAux, encodeGroup]
      · split_ifs <;>
          exact encodeAux_ne_nil chars padding lineLength (r :: rs) _ _ (by simp)

/-- Indexing a 64-symbol alphabet at a reduced index stays in the alphabet. -/
theorem getD_mod64_mem (chars : List Char) (h64 : chars.length = 64) (n : Nat) :
    chars.getD (n % 64) 'A' ∈ chars := by
  have h : n % 64 < chars.length := by
    rw [h64]; exact Nat.mod_lt _ (by norm_num)
  rw [List.getD_eq_getElem chars 'A' h]
  exact List.getElem_mem h

/-- `encodeAux` with `padding = true` and `lineLength = 0` emits exactly
four symbols per started 3-byte group. -/
theorem encodeAux_length_padded (chars : List Char) :
    ∀ (bytes : List Nat) (cnt : Nat),
      (encodeAux chars true 0 bytes [] cnt).length = (bytes.length + 2) / 3 * 4
  | [], cnt => by simp [encodeAux]
  | [b0], cnt => by simp [encodeAux]
  | [b0, b1], cnt => by simp [encodeAux]
  | b0 :: b1 :: b2 :: rest, cnt => by
      simp only [encodeAux, List.nil_append]
      rw [if_neg (by omega), encodeAux_append, List.length_append,
        encodeAux_length_padded chars rest cnt]
      simp only [encodeGroup, List.length_cons, List.length_nil]
      omega

/-- `encodeAux` with `padding = false` and `lineLength = 0` emits
`ceil(4 * len / 3)` symbols. -/
theorem encodeAux_length_nopad (chars : List Char) :
    ∀ (bytes : List Nat) (cnt : Nat),
      (encodeAux chars false 0 bytes [] cnt).length = (4 * bytes.length + 2) / 3
  | [], cnt => by simp [encodeAux]
  | [b0], cnt => by simp [encodeAux]
  | [b0, b1], cnt => by simp [encodeAux]
  | b0 :: b1 :: b2 :: rest, cnt => by
      simp only [encodeAux, List.nil_append]
      rw [if_neg (by omega), encodeAux_append, List.length_append,
        encodeAux_length_nopad chars rest cnt]
      simp only [encodeGroup, List.length_cons, List.length_nil]
      omega

/-- Characters of the cosmetic padding list. -/
theorem mem_if_pad (P : Char → Prop) (p : Bool) (he : P '=') :
    ∀ x ∈ (if p then ['='] else ([] : List Char)), P x := by
  split_ifs
  · intro x hx
    simp only [List.mem_cons, List.not_mem_nil, or_false] at hx
    rw [hx]; exact he
  · intro x hx
    simp at hx

/-- Characters of one emitted 4-symbol group. -/
theorem mem_encodeGroup (P : Char → Prop) (chars : List Char) (combined : Nat)
    (hch : ∀ n, P (chars.getD (n % 64) 'A')) :
    ∀ x ∈ encodeGroup chars combined, P x := by
  intro x hx
  simp only [encodeGroup, List.mem_cons, List.not_mem_nil, or_false] at hx
  rcases hx with hx | hx | hx | hx <;> (rw [hx]; exact hch _)

/-- Characters of the tail emission, including the optional trailing
line terminator. -/
theorem mem_tail_chunk (P : Char → Prop) (syms : List Char) (L : Nat)
    (acc : List Char) (hacc : ∀ x ∈ acc, P x) (hsyms : ∀ x ∈ syms, P x)
    (hcr : P '\r') (hlf : P '\n') (c : Char)
    (h : c ∈ (if 0 < L ∧ (acc ++ syms).getLast? ≠ some '\n' then
        (acc ++ syms) ++ ['\r', '\n'] else acc ++ syms)) :
    P c := by
  have base : ∀ x ∈ acc ++ syms, P x := by
    intro x hx
    rcases List.mem_append.1 hx with hx | hx
    · exact hacc x hx
    · exact hsyms x hx
  split_ifs at h
  · rcases List.mem_append.1 h with h | h
    · exact base c h
    · simp only [List.mem_cons, List.not_mem_nil, or_false] at h
      rcases h with h | h <;> (rw [h]; assumption)
  · exact base c h

/-- Every character `encodeAux` appends beyond its accumulator is an
alphabet symbol, the padding character, or part of a line terminator:
generic preservation of a character predicate. -/
theorem encodeAux_forall (chars : List Char) (padding : Bool) (lineLength : Nat)
    (P : Char → Prop) (hch : ∀ n, P (chars.getD (n % 64) 'A'))
    (heq : P '=') (hcr : P '\r') (hlf : P '\n') :
    ∀ (bytes : List Nat) (acc : List Char) (cnt : Nat),
      (∀ x ∈ acc, P x) → ∀ c ∈ encodeAux chars padding lineLength bytes acc cnt, P c
  | [], acc, cnt, hacc, c, h => by
      simp only [encodeAux] at h
      exact hacc c h
  | [b0], acc, cnt, hacc, c, h => by
      simp only [encodeAux] at h
      refine mem_tail_chunk P _ lineLength acc hacc ?_ hcr hlf c h
      intro x hx
      rcases List.mem_append.1 hx with hx | hx
      · rcases List.mem_append.1 hx with hx | hx
        · simp only [List.mem_cons, List.not_mem_nil, or_false] at hx
          rcases hx with hx | hx <;> (rw [hx]; exact hch _)
        · exact mem_if_pad P padding heq x hx
      · exact mem_if_pad P padding heq x hx
  | [b0, b1], acc, cnt, hacc, c, h => by
      simp only [encodeAux] at h
      refine mem_tail_chunk P _ lineLength acc hacc ?_ hcr hlf c h
      intro x hx
      rcases List.mem_append.1 hx with hx | hx
      · simp only [List.mem_cons, List.not_mem_nil, or_false] at hx
        rcases hx with hx | hx | hx <;> (rw [hx]; exact hch _)
      · exact mem_if_pad P padding heq x hx
  | b0 :: b1 :: b2 :: rest, acc, cnt, hacc, c, h => by
      simp only [encodeAux] at h
      have hacc1 : ∀ x ∈ acc ++
          encodeGroup chars (b0 % 256 * 2 ^ 16 + b1 % 256 * 2 ^ 8 + b2 % 256), P x := by
        intro x hx
        rcases List.mem_append.1 hx with hx | hx
        · exact hacc x hx
        · exact mem_encodeGroup P chars _ hch x hx
      split_ifs at h
      · refine encodeAux_forall chars padding lineLength P hch heq hcr hlf rest _ 0 ?_ c h
        intro x hx
        rcases List.mem_append.1 hx with hx | hx
        · exact hacc1 x hx
        · simp only [List.mem_cons, List.not_mem_nil, or_false] at hx
          rcases hx with hx | hx <;> (rw [hx]; assumption)
      · exact encodeAux_forall chars padding lineLength P hch heq hcr hlf rest _
          (cnt + 4) hacc1 c h
      · exact encodeAux_forall chars padding lineLength P hch heq hcr hlf rest _
          cnt hacc1 c h

/-- With `padding = false` and `lineLength = 0`, every character `encodeAux`
appends beyond its accumulator is an alphabet symbol. -/
theorem encodeAux_forall_nopad (chars : List Char) (P : Char → Prop)
    (hch : ∀ n, P (chars.getD (n % 64) 'A')) :
    ∀ (bytes : List Nat) (acc : List Char) (cnt : Nat),
      (∀ x ∈ acc, P x) → ∀ c ∈ encodeAux chars false 0 bytes acc cnt, P c
  | [], acc, cnt, hacc, c, h => by
      simp only [encodeAux] at h
      exact hacc c h
  | [b0], acc, cnt, hacc, c, h => by
      simp only [encodeAux] at h
      rw [if_neg (by simp)] at h
      rcases List.mem_append.1 h with h | h
      · exact hacc c h
      · rcases List.mem_append.1 h with h | h
        · rcases List.mem_append.1 h with h | h
          · simp only [List.mem_cons, List.not_mem_nil, or_false] at h
            rcases h with h | h <;> (rw [h]; exact hch _)
          · simp at h
        · simp at h
  | [b0, b1], acc, cnt, hacc, c, h => by
      simp only [encodeAux] at h
      rw [if_neg (by simp)] at h
      rcases List.mem_append.1 h with h | h
      · exact hacc c h
      · rcases List.mem_append.1 h with h | h
        · simp only [List.mem_cons, List.not_mem_nil, or_false] at h
          rcases h with h | h | h <;> (rw [h]; exact hch _)
        · simp at h
  | b0 :: b1 :: b2 :: rest, acc, cnt, hacc, c, h => by
      simp only [encodeAux] at h
      rw [if_neg (by omega)] at h
      refine encodeAux_forall_nopad chars P hch rest _ cnt ?_ c h
      intro x hx
      rcases List.mem_append.1 hx with hx | hx
      · exact hacc x hx
      · exact mem_encodeGroup P chars _ hch x hx


/-! Relating the two variants: the UrlSafe output is the Standard output
with `+` and `/` rewritten to `-` and `_`. -/

/-- The character substitution distinguishing the two alphabets. -/
def swapChar (c : Char) : Char :=
  if c = '+' then '-' else if c = '/' then '_' else c

theorem urlsafe_eq_map_swap : URLSAFE_CHARS = STANDARD_CHARS.map swapChar := by
  decide

theorem swapChar_cr : swapChar '\r' = '\r' := by decide

theorem swapChar_lf : swapChar '\n' = '\n' := by decide

theorem swapChar_pad : swapChar '=' = '=' := by decide

theorem swapChar_eq_lf (c : Char) : swapChar c = '\n' ↔ c = '\n' := by
  unfold swapChar
  split_ifs with h1 h2
  · subst h1; decide
  · subst h2; decide
  · exact Iff.rfl

/-- Index-wise relation between the two alphabets. -/
theorem getD_urlsafe_swap (n : Nat) :
    URLSAFE_CHARS.getD (n % 64) 'A' = swapChar (STANDARD_CHARS.getD (n % 64) 'A') := by
  have key : ∀ m, m < 64 →
      URLSAFE_CHARS.getD m 'A' = swapChar (STANDARD_CHARS.getD m 'A') := by decide
  exact key (n % 64) (Nat.mod_lt _ (by norm_num))

/-- The same relation in the `getElem?` normal form that `simp` produces. -/
theorem getElem?_urlsafe_swap (n : Nat) :
    URLSAFE_CHARS[n % 64]?.getD 'A' = swapChar (STANDARD_CHARS[n % 64]?.getD 'A') := by
  rw [← List.getD_eq_getElem?_getD, ← List.getD_eq_getElem?_getD]
  exact getD_urlsafe_swap n

theorem encodeGroup_swap (combined : Nat) :
    encodeGroup URLSAFE_CHARS combined =
      (encodeGroup STANDARD_CHARS combined).map swapChar := by
  simp only [encodeGroup, List.map_cons, List.map_nil, getD_urlsafe_swap]

theorem map_swap_pad (p : Bool) :
    (if p then ['='] else ([] : List Char)).map swapChar =
      (if p then ['='] else ([] : List Char)) := by
  split_ifs <;> simp [swapChar_pad]

/-- The final-character test of the tail commutes with the substitution. -/
theorem getLast?_map_swap_lf (l : List Char) :
    ((l.map swapChar).getLast? = some '\n') ↔ (l.getLast? = some '\n') := by
  rw [List.getLast?_map]
  cases h : l.getLast? <;> simp [swapChar_eq_lf]

theorem tail_swap (L : Nat) (s : List Char) :
    (if 0 < L ∧ (s.map swapChar).getLast? ≠ some '\n' then
        (s.map swapChar) ++ ['\r', '\n'] else s.map swapChar) =
      (if 0 < L ∧ s.getLast? ≠ some '\n' then s ++ ['\r', '\n'] else s).map swapChar := by
  have hc : (0 < L ∧ (s.map swapChar).getLast? ≠ some '\n') ↔
      (0 < L ∧ s.getLast? ≠ some '\n') :=
    and_congr_right fun _ => not_congr (getLast?_map_swap_lf s)
  rw [if_congr hc rfl rfl]
  split_ifs
  · simp [swapChar_cr, swapChar_lf]
  · rfl

/-- The encode loop under the UrlSafe alphabet computes the character-wise
substitution of the loop under the Standard alphabet. -/
theorem encodeAux_swap (padding : Bool) (lineLength : Nat) :
    ∀ (bytes : List Nat) (acc : List Char) (cnt : Nat),
      encodeAux URLSAFE_CHARS padding lineLength bytes (acc.map swapChar) cnt =
        (encodeAux STANDARD_CHARS padding lineLength bytes acc cnt).map swapChar
  | [], acc, cnt => by simp [encodeAux]
  | [b0], acc, cnt => by
      simp only [encodeAux]
      rw [show acc.map swapChar ++
            ([URLSAFE_CHARS.getD (b0 % 256 * 2 ^ 16 / 2 ^ 18 % 64) 'A',
              URLSAFE_CHARS.getD (b0 % 256 * 2 ^ 16 / 2 ^ 12 % 64) 'A'] ++
             (if padding then ['='] else []) ++ (if padding then ['='] else [])) =
          (acc ++
            ([STANDARD_CHARS.getD (b0 % 256 * 2 ^ 16 / 2 ^ 18 % 64) 'A',
              STANDARD_CHARS.getD (b0 % 256 * 2 ^ 16 / 2 ^ 12 % 64) 'A'] ++
             (if padding then ['='] else []) ++
             (if padding then ['='] else []))).map swapChar from by
        simp [getD_urlsafe_swap, getElem?_urlsafe_swap, map_swap_pad]]
      exact tail_swap lineLength _
  | [b0, b1], acc, cnt => by
      simp only [encodeAux]
      rw [show acc.map swapChar ++
            ([URLSAFE_CHARS.getD ((b0 % 256 * 2 ^ 16 + b1 % 256 * 2 ^ 8) / 2 ^ 18 % 64) 'A',
              URLSAFE_CHARS.getD ((b0 % 256 * 2 ^ 16 + b1 % 256 * 2 ^ 8) / 2 ^ 12 % 64) 'A',
              URLSAFE_CHARS.getD ((b0 % 256 * 2 ^ 16 + b1 % 256 * 2 ^ 8) / 2 ^ 6 % 64) 'A'] ++
             (if padding then ['='] else [])) =
          (acc ++
            ([STANDARD_CHARS.getD ((b0 % 256 * 2 ^ 16 + b1 % 256 * 2 ^ 8) / 2 ^ 18 % 64) 'A',
              STANDARD_CHARS.getD ((b0 % 256 * 2 ^ 16 + b1 % 256 * 2 ^ 8) / 2 ^ 12 % 64) 'A',
              STANDARD_CHARS.getD ((b0 % 256 * 2 ^ 16 + b1 % 256 * 2 ^ 8) / 2 ^ 6 % 64) 'A'] ++
             (if padding then ['='] else []))).map swapChar from by
        simp [getD_urlsafe_swap, getElem?_urlsafe_swap, map_swap_pad]]
      exact tail_swap lineLength _
  | b0 :: b1 :: b2 :: rest, acc, cnt => by
      simp only [encodeAux]
      have hg : acc.map swapChar ++
          encodeGroup URLSAFE_CHARS (b0 % 256 * 2 ^ 16 + b1 % 256 * 2 ^ 8 + b2 % 256) =
            (acc ++
              encodeGroup STANDARD_CHARS
                (b0 % 256 * 2 ^ 16 + b1 % 256 * 2 ^ 8 + b2 % 256)).map swapChar := by
        rw [encodeGroup_swap, List.map_append]
      split_ifs
      · rw [show acc.map swapChar ++
              encodeGroup URLSAFE_CHARS (b0 % 256 * 2 ^ 16 + b1 % 256 * 2 ^ 8 + b2 % 256) ++
                ['\r', '\n'] =
            ((acc ++
              encodeGroup STANDARD_CHARS
                (b0 % 256 * 2 ^ 16 + b1 % 256 * 2 ^ 8 + b2 % 256)) ++
                ['\r', '\n']).map swapChar from by
          rw [hg, List.map_append]; simp [swapChar_cr, swapChar_lf]]
        exact encodeAux_swap padding lineLength rest _ 0
      · rw [hg]
        exact encodeAux_swap padding lineLength rest _ (cnt + 4)
      · rw [hg]
        exact encodeAux_swap padding lineLength rest _ cnt

/-! Line-structure machinery for the wrapping claims. -/

/-- Split a character list at every occurrence of the terminator `"\r\n"`. -/
def splitCRLF : List Char → List (List Char)
  | [] => [[]]
  | '\r' :: '\n' :: rest => [] :: splitCRLF rest
  | c :: rest => (c :: (splitCRLF rest).headI) :: (splitCRLF rest).tail

theorem splitCRLF_ne_nil (s : List Char) : splitCRLF s ≠ [] := by
  rw [splitCRLF.eq_def]
  split <;> simp

theorem splitCRLF_crlf (y : List Char) :
    splitCRLF ('\r' :: '\n' :: y) = [] :: splitCRLF y := rfl

theorem splitCRLF_cons_ne (c : Char) (rest : List Char) (hc : c ≠ '\r') :
    splitCRLF (c :: rest) = (c :: (splitCRLF rest).headI) :: (splitCRLF rest).tail := by
  rw [splitCRLF.eq_def]
  split
  · rename_i heq
    exact absurd heq (by simp)
  · rename_i heq
    rw [List.cons.injEq] at heq
    exact absurd heq.1 hc
  · rename_i heq
    rw [List.cons.injEq] at heq
    rw [heq.1, heq.2]

/-- A terminator-free block only extends the first segment. -/
theorem splitCRLF_append_noCR (x : List Char) (hx : '\r' ∉ x) (y : List Char) :
    splitCRLF (x ++ y) = (x ++ (splitCRLF y).headI) :: (splitCRLF y).tail := by
  induction x with
  | nil =>
    simp only [List.nil_append]
    cases h : splitCRLF y with
    | nil => exact absurd h (splitCRLF_ne_nil y)
    | cons l ls => simp [h]
  | cons c x ih =>
    have hc : c ≠ '\r' := fun h => hx (by simp [h])
    have hx' : '\r' ∉ x := fun h => hx (List.mem_cons_of_mem c h)
    rw [List.cons_append, splitCRLF_cons_ne c (x ++ y) hc, ih hx']
    simp

theorem splitCRLF_append_crlf (x : List Char) (hx : '\r' ∉ x) (y : List Char) :
    splitCRLF (x ++ '\r' :: '\n' :: y) = x :: splitCRLF y := by
  rw [splitCRLF_append_noCR x hx, splitCRLF_crlf]
  simp

theorem splitCRLF_noCR (x : List Char) (hx : '\r' ∉ x) : splitCRLF x = [x] := by
  have h := splitCRLF_append_noCR x hx []
  simp only [List.append_nil] at h
  rw [h]
  simp [splitCRLF]

theorem splitCRLF_eq_single_nil (s : List Char) (h : splitCRLF s = [[]]) : s = [] := by
  rw [splitCRLF.eq_def] at h
  split at h
  · rfl
  · simp only [List.cons.injEq] at h
    exact absurd h.2 (splitCRLF_ne_nil _)
  · simp at h

/-- The line segments of a text: split at every `"\r\n"`, reading a trailing
terminator as ending the final line (so it contributes no extra empty
segment). -/
def lines (s : List Char) : List (List Char) :=
  if (splitCRLF s).getLast? = some [] then (splitCRLF s).dropLast else splitCRLF s

theorem lines_nil : lines ([] : List Char) = [] := by
  simp [lines, splitCRLF]

theorem lines_ne_nil (s : List Char) (hs : s ≠ []) : lines s ≠ [] := by
  unfold lines
  split_ifs with h
  · intro hd
    have hlen : (splitCRLF s).length ≤ 1 := by
      have hc := congrArg List.length hd
      simp only [List.length_dropLast, List.length_nil] at hc
      omega
    rcases hsp : splitCRLF s with _ | ⟨a, _ | ⟨b, t⟩⟩
    · exact splitCRLF_ne_nil s hsp
    · rw [hsp] at h
      simp only [List.getLast?_singleton, Option.some.injEq] at h
      subst h
      exact hs (splitCRLF_eq_single_nil s hsp)
    · rw [hsp] at hlen
      simp at hlen
  · exact splitCRLF_ne_nil s

theorem lines_append_crlf (x : List Char) (hx : '\r' ∉ x) (y : List Char) :
    lines (x ++ '\r' :: '\n' :: y) = x :: lines y := by
  unfold lines
  rw [splitCRLF_append_crlf x hx]
  have h1 : splitCRLF y ≠ [] := splitCRLF_ne_nil y
  rw [show x :: splitCRLF y = [x] ++ splitCRLF y from rfl,
    List.getLast?_append_of_ne_nil [x] h1]
  split_ifs
  · simp only [List.singleton_append]
    exact List.dropLast_cons_of_ne_nil h1
  · rfl

theorem lines_append_crlf_nil (x : List Char) (hx : '\r' ∉ x) :
    lines (x ++ ['\r', '\n']) = [x] := by
  unfold lines
  rw [show x ++ ['\r', '\n'] = x ++ '\r' :: '\n' :: [] from rfl,
    splitCRLF_append_crlf x hx]
  simp [splitCRLF]

theorem lines_noCR (x : List Char) (hx : '\r' ∉ x) (hxe : x ≠ []) : lines x = [x] := by
  unfold lines
  rw [splitCRLF_noCR x hx]
  rw [if_neg]
  simp [hxe]

/-- `getD_mod64_mem` in the `getElem?` normal form `simp` produces. -/
theorem getElem?_mod64_mem (chars : List Char) (h64 : chars.length = 64) (n : Nat) :
    chars[n % 64]?.getD 'A' ∈ chars := by
  rw [← List.getD_eq_getElem?_getD]
  exact getD_mod64_mem chars h64 n

/-- Wrapping invariant: with `cnt` symbols already emitted on the current
line (materialized as the terminator-free block `pad`), every line of
`pad ++ encodeAux … cnt` except the last holds exactly `4 * ceil(L / 4)`
symbols — the first multiple of 4 at which `lineCharCount` reaches `L`. -/
theorem encodeAux_wrapped_lines (chars : List Char) (padding : Bool) (L : Nat)
    (h64 : chars.length = 64) (hcr : '\r' ∉ chars) (hlf : '\n' ∉ chars) (hL : 0 < L) :
    ∀ (bytes : List Nat) (pad : List Char) (cnt : Nat),
      pad.length = cnt → '\r' ∉ pad → cnt % 4 = 0 → cnt + 4 ≤ 4 * ((L + 3) / 4) →
      ∀ seg ∈ (lines (pad ++ encodeAux chars padding L bytes [] cnt)).dropLast,
        seg.length = 4 * ((L + 3) / 4)
  | [], pad, cnt, hlen, hpcr, hmod, hbound, seg, hseg => by
      simp only [encodeAux, List.append_nil] at hseg
      by_cases hp : pad = []
      · subst hp
        rw [lines_nil] at hseg
        simp at hseg
      · rw [lines_noCR pad hpcr hp] at hseg
        simp at hseg
  | [b0], pad, cnt, hlen, hpcr, hmod, hbound, seg, hseg => by
      simp only [encodeAux, List.nil_append] at hseg
      have hlast : ([chars.getD (b0 % 256 * 2 ^ 16 / 2 ^ 18 % 64) 'A',
          chars.getD (b0 % 256 * 2 ^ 16 / 2 ^ 12 % 64) 'A'] ++
          (if padding then ['='] else []) ++
          (if padding then ['='] else [])).getLast? ≠ some '\n' := by
        cases padding <;> simp
        intro h
        exact hlf (h ▸ getElem?_mod64_mem chars h64 _)
      have hnoCR : '\r' ∉ pad ++
          ([chars.getD (b0 % 256 * 2 ^ 16 / 2 ^ 18 % 64) 'A',
            chars.getD (b0 % 256 * 2 ^ 16 / 2 ^ 12 % 64) 'A'] ++
           (if padding then ['='] else []) ++ (if padding then ['='] else [])) := by
        intro hm
        rcases List.mem_append.1 hm with hm | hm
        · exact hpcr hm
        rcases List.mem_append.1 hm with hm | hm
        · rcases List.mem_append.1 hm with hm | hm
          · simp only [List.mem_cons, List.not_mem_nil, or_false] at hm
            rcases hm with hm | hm <;>
              exact hcr (by rw [hm]; exact getD_mod64_mem chars h64 _)
          · exact absurd rfl (mem_if_pad (fun c => c ≠ '\r') padding (by decide) '\r' hm)
        · exact absurd rfl (mem_if_pad (fun c => c ≠ '\r') padding (by decide) '\r' hm)
      rw [if_pos ⟨hL, hlast⟩, ← List.append_assoc] at hseg
      rw [lines_append_crlf_nil _ hnoCR] at hseg
      simp at hseg
  | [b0, b1], pad, cnt, hlen, hpcr, hmod, hbound, seg, hseg => by
      simp only [encodeAux, List.nil_append] at hseg
      have hlast : ([chars.getD ((b0 % 256 * 2 ^ 16 + b1 % 256 * 2 ^ 8) / 2 ^ 18 % 64) 'A',
          chars.getD ((b0 % 256 * 2 ^ 16 + b1 % 256 * 2 ^ 8) / 2 ^ 12 % 64) 'A',
          chars.getD ((b0 % 256 * 2 ^ 16 + b1 % 256 * 2 ^ 8) / 2 ^ 6 % 64) 'A'] ++
          (if padding then ['='] else [])).getLast? ≠ some '\n' := by
        cases padding <;> simp
        intro h
        exact hlf (h ▸ getElem?_mod64_mem chars h64 _)
      have hnoCR : '\r' ∉ pad ++
          ([chars.getD ((b0 % 256 * 2 ^ 16 + b1 % 256 * 2 ^ 8) / 2 ^ 18 % 64) 'A',
            chars.getD ((b0 % 256 * 2 ^ 16 + b1 % 256 * 2 ^ 8) / 2 ^ 12 % 64) 'A',
            chars.getD ((b0 % 256 * 2 ^ 16 + b1 % 256 * 2 ^ 8) / 2 ^ 6 % 64) 'A'] ++
           (if padding then ['='] else [])) := by
        intro hm
        rcases List.mem_append.1 hm with hm | hm
        · exact hpcr hm
        rcases List.mem_append.1 hm with hm | hm
        · simp only [List.mem_cons, List.not_mem_nil, or_false] at hm
          rcases hm with hm | hm | hm <;>
            exact hcr (by rw [hm]; exact getD_mod64_mem chars h64 _)
        · exact absurd rfl (mem_if_pad (fun c => c ≠ '\r') padding (by decide) '\r' hm)
      rw [if_pos ⟨hL, hlast⟩, ← List.append_assoc] at hseg
      rw [lines_append_crlf_nil _ hnoCR] at hseg
      simp at hseg
  | b0 :: b1 :: b2 :: rest, pad, cnt, hlen, hpcr, hmod, hbound, seg, hseg => by
      simp only [encodeAux, List.nil_append] at hseg
      rw [if_pos hL] at hseg
      have hgmem : ∀ x ∈ encodeGroup chars (b0 % 256 * 2 ^ 16 + b1 % 256 * 2 ^ 8 + b2 % 256),
          x ∈ chars :=
        mem_encodeGroup _ chars _ (getD_mod64_mem chars h64)
      have hpg : '\r' ∉ pad ++
          encodeGroup chars (b0 % 256 * 2 ^ 16 + b1 % 256 * 2 ^ 8 + b2 % 256) := by
        intro hm
        rcases List.mem_append.1 hm with hm | hm
        · exact hpcr hm
        · exact hcr (hgmem '\r' hm)
      have hpglen : (pad ++
          encodeGroup chars (b0 % 256 * 2 ^ 16 + b1 % 256 * 2 ^ 8 + b2 % 256)).length =
            cnt + 4 := by
        simp [encodeGroup, hlen]
      by_cases hw : L ≤ cnt + 4
      · rw [if_pos hw, encodeAux_append] at hseg
        simp only [List.append_assoc, List.cons_append, List.nil_append] at hseg
        rw [← List.append_assoc] at hseg
        by_cases hrest : rest = []
        · subst hrest
          simp only [encodeAux] at hseg
          rw [lines_append_crlf_nil _ hpg] at hseg
          simp at hseg
        · have hEne : encodeAux chars padding L rest [] 0 ≠ [] :=
            encodeAux_ne_nil chars padding L rest [] 0 hrest
          rw [lines_append_crlf _ hpg] at hseg
          rw [List.dropLast_cons_of_ne_nil (lines_ne_nil _ hEne)] at hseg
          rcases List.mem_cons.1 hseg with h | h
          · rw [h, hpglen]
            omega
          · exact encodeAux_wrapped_lines chars padding L h64 hcr hlf hL rest [] 0
              rfl (by simp) rfl (by omega) seg (by simpa using h)
      · rw [if_neg hw, encodeAux_append, ← List.append_assoc] at hseg
        exact encodeAux_wrapped_lines chars padding L h64 hcr hlf hL rest
          (pad ++ encodeGroup chars (b0 % 256 * 2 ^ 16 + b1 % 256 * 2 ^ 8 + b2 % 256))
          (cnt + 4) hpglen hpg (by omega) (by omega) seg hseg

/-- A character absent from a list is absent from the positional lookup. -/
theorem lookupIn_eq_none (c : Char) :
    ∀ (l : List Char) (i : Nat), c ∉ l → lookupIn l i c = none
  | [], _, _ => rfl
  | a :: rest, i, h => by
      rw [lookupIn, if_neg]
      · exact lookupIn_eq_none c rest (i + 1) fun hm => h (List.mem_cons_of_mem a hm)
      · intro he
        subst he
        exact h (List.mem_cons_self a rest)

/-! The claims. -/

/-- C1: the claimed round-trip `decode (encode b opts) opts = b` fails on
the code at `b = [77]` with the UrlSafe variant, `padding = true` and
`lineLength = 0`: encode produces `"TQ=="`, but the UrlSafe sanitization
class lacks `=`, so decode strips the padding and the length check rejects
the remaining 2 characters with a LengthError instead of returning `[77]`.
The same bytes round-trip in the three other variant/padding combinations. -/
theorem roundtrip_urlsafe_padding_fails :
    encode [77] { variant := Base64Variant.UrlSafe } = "TQ==".data ∧
    decode (encode [77] { variant := Base64Variant.UrlSafe })
        { variant := Base64Variant.UrlSafe } = Except.error DecodeError.LengthError ∧
    decode (encode [77] {}) {} = Except.ok [77] ∧
    decode (encode [77] { padding := false }) { padding := false } = Except.ok [77] ∧
    decode (encode [77] { variant := Base64Variant.UrlSafe, padding := false })
        { variant := Base64Variant.UrlSafe, padding := false } = Except.ok [77] :=
  ⟨by decide, by decide, by decide, by decide, by decide⟩

/-- C2: sanitization keeps `=` only under the Standard variant: the UrlSafe
character class lacks `=`, so `"TQ=="` sanitizes to `"TQ"` under UrlSafe,
contradicting the claim that exactly the characters outside
{alphabet, `=`} are removed. The claim's Standard-variant example holds:
`decode "TW\r\nFu"` strips the line break and yields the UTF-8 of "Man". -/
theorem sanitize_urlsafe_strips_padding :
    "TQ==".data.filter (keepChar Base64Variant.UrlSafe) = "TQ".data ∧
    "TQ==".data.filter (keepChar Base64Variant.Standard) = "TQ==".data ∧
    decode "TW\r\nFu".data {} = Except.ok [77, 97, 110] ∧
    decode "TQ==".data { variant := Base64Variant.UrlSafe } =
      Except.error DecodeError.LengthError :=
  ⟨by decide, by decide, by decide, by decide⟩

/-- C3: decode fails exactly when `padding` is true and the sanitized length
is not a multiple of 4; the only possible outcome besides a byte list is the
LengthError, and on failure no bytes are produced. -/
theorem decode_error_characterization (s : List Char) (opts : Base64Options) :
    (decode s opts = Except.error DecodeError.LengthError ∨
        ∃ bs, decode s opts = Except.ok bs) ∧
    (decode s opts = Except.error DecodeError.LengthError ↔
        opts.padding = true ∧ (s.filter (keepChar opts.variant)).length % 4 ≠ 0) := by
  by_cases hcond : opts.padding = true ∧ (s.filter (keepChar opts.variant)).length % 4 ≠ 0
  · have hd : decode s opts = Except.error DecodeError.LengthError := by
      simp only [decode]
      rw [if_pos hcond]
    exact ⟨Or.inl hd, fun _ => hcond, fun _ => hd⟩
  · have hd : ∃ bs, decode s opts = Except.ok bs :=
      ⟨_, by simp only [decode]; rw [if_neg hcond]⟩
    obtain ⟨bs, hbs⟩ := hd
    refine ⟨Or.inr ⟨bs, hbs⟩, ?_, fun hc => absurd hc hcond⟩
    intro hc
    rw [hbs] at hc
    exact absurd hc (by simp)

theorem decode_error_characterization_witness :
    (decode "TQ=".data {} = Except.error DecodeError.LengthError ∨
        ∃ bs, decode "TQ=".data {} = Except.ok bs) ∧
    (decode "TQ=".data {} = Except.error DecodeError.LengthError ↔
        ({} : Base64Options).padding = true ∧
          ("TQ=".data.filter (keepChar ({} : Base64Options).variant)).length % 4 ≠ 0) :=
  decode_error_characterization "TQ=".data {}

/-- C4: with `padding = true` and `lineLength = 0`, for either variant, the
output length is `ceil(len/3) * 4 = ((len + 2) / 3) * 4`. -/
theorem encode_length_padded (b : List Nat) (variant : Base64Variant) :
    (encode b { variant := variant, padding := true, lineLength := 0 }).length =
      (b.length + 2) / 3 * 4 :=
  encodeAux_length_padded (getChars variant) b 0

theorem encode_length_padded_witness :
    (encode [1, 2, 3, 4]
        { variant := Base64Variant.Standard, padding := true, lineLength := 0 }).length =
      (([1, 2, 3, 4] : List Nat).length + 2) / 3 * 4 :=
  encode_length_padded [1, 2, 3, 4] Base64Variant.Standard

/-- C5: with `padding = false` and `lineLength = 0`, for either variant, the
output contains no `=` and its length is `ceil(4*len/3) = (4*len + 2) / 3`,
which is `4 * (len / 3)` plus 0, 2 or 3 according to the tail size. -/
theorem encode_nopad_no_eq_and_length (b : List Nat) (variant : Base64Variant) :
    '=' ∉ encode b { variant := variant, padding := false, lineLength := 0 } ∧
    (encode b { variant := variant, padding := false, lineLength := 0 }).length =
      (4 * b.length + 2) / 3 ∧
    (4 * b.length + 2) / 3 =
      4 * (b.length / 3) +
        (if b.length % 3 = 0 then 0 else if b.length % 3 = 1 then 2 else 3) := by
  have h64 : (getChars variant).length = 64 := by cases variant <;> decide
  refine ⟨?_, encodeAux_length_nopad (getChars variant) b 0, ?_⟩
  · intro hmem
    have hm : '=' ∈ getChars variant :=
      encodeAux_forall_nopad (getChars variant) (fun c => c ∈ getChars variant)
        (getD_mod64_mem _ h64) b [] 0 (by simp) '=' hmem
    revert hm
    cases variant <;> decide
  · split_ifs <;> omega

theorem encode_nopad_no_eq_and_length_witness :
    '=' ∉ encode [77, 97]
        { variant := Base64Variant.Standard, padding := false, lineLength := 0 } ∧
    (encode [77, 97]
        { variant := Base64Variant.Standard, padding := false, lineLength := 0 }).length =
      (4 * ([77, 97] : List Nat).length + 2) / 3 ∧
    (4 * ([77, 97] : List Nat).length + 2) / 3 =
      4 * (([77, 97] : List Nat).length / 3) +
        (if ([77, 97] : List Nat).length % 3 = 0 then 0
         else if ([77, 97] : List Nat).length % 3 = 1 then 2 else 3) :=
  encode_nopad_no_eq_and_length [77, 97] Base64Variant.Standard

/-- C6: for any fixed padding and line length, the UrlSafe encoding is the
character-wise image of the Standard encoding under the substitution
`'+' ↦ '-'`, `'/' ↦ '_'`, identity elsewhere: same length, and differences
exactly at the `+`/`/` positions. -/
theorem encode_urlsafe_map_swap (b : List Nat) (p : Bool) (L : Nat) :
    encode b { variant := Base64Variant.UrlSafe, padding := p, lineLength := L } =
      (encode b
          { variant := Base64Variant.Standard, padding := p, lineLength := L }).map
        swapChar ∧
    swapChar '+' = '-' ∧ swapChar '/' = '_' ∧
    (∀ c, c ≠ '+' → c ≠ '/' → swapChar c = c) := by
  refine ⟨?_, by decide, by decide, ?_⟩
  · have h := encodeAux_swap p L b [] 0
    rw [List.map_nil] at h
    exact h
  · intro c h1 h2
    simp [swapChar, h1, h2]

theorem encode_urlsafe_map_swap_witness :
    (encode [255, 255, 255]
        { variant := Base64Variant.UrlSafe, padding := true, lineLength := 0 } =
      (encode [255, 255, 255]
          { variant := Base64Variant.Standard, padding := true, lineLength := 0 }).map
        swapChar) ∧
    swapChar 'A' = 'A' :=
  ⟨(encode_urlsafe_map_swap [255, 255, 255] true 0).1,
   (encode_urlsafe_map_swap [255, 255, 255] true 0).2.2.2 'A' (by decide) (by decide)⟩

/-- C7: with `lineLength = 76` and the default variant and padding, every
line segment except the last holds exactly 76 symbols, each such segment
being closed by its `"\r\n"` terminator. -/
theorem encode_wrap76_lines (b : List Nat) :
    ∀ seg ∈ (lines (encode b { lineLength := 76 })).dropLast, seg.length = 76 := by
  intro seg hseg
  have h := encodeAux_wrapped_lines STANDARD_CHARS true 76 (by decide) (by decide)
    (by decide) (by norm_num) b [] 0 rfl (by simp) rfl (by norm_num) seg
    (by simpa [encode, getChars] using hseg)
  simpa using h

theorem encode_wrap76_lines_witness : (List.replicate 76 'A').length = 76 :=
  encode_wrap76_lines (List.replicate 58 0) (List.replicate 76 'A') (by decide)

/-- C8: both alphabets hold 64 distinct symbols, agree everywhere except at
positions 62 and 63 (`+`,`/` vs `-`,`_`), the lookup inverts indexing
(`lookup[alphabet[i]] = i`), and symbols outside the alphabet are absent
from the lookup. -/
theorem alphabet_lookup_invariants :
    (STANDARD_CHARS.length = 64 ∧ URLSAFE_CHARS.length = 64 ∧
     STANDARD_CHARS.Nodup ∧ URLSAFE_CHARS.Nodup) ∧
    (∀ i, i < 64 → i ≠ 62 → i ≠ 63 →
        STANDARD_CHARS.getD i 'A' = URLSAFE_CHARS.getD i 'A') ∧
    (STANDARD_CHARS.getD 62 'A' = '+' ∧ STANDARD_CHARS.getD 63 'A' = '/' ∧
     URLSAFE_CHARS.getD 62 'A' = '-' ∧ URLSAFE_CHARS.getD 63 'A' = '_') ∧
    (∀ variant, ∀ i, i < 64 →
        createLookup variant ((getChars variant).getD i 'A') = some i) ∧
    (∀ variant c, c ∉ getChars variant → createLookup variant c = none) := by
  refine ⟨by decide, by decide, by decide, ?_, ?_⟩
  · intro variant
    cases variant <;> decide
  · intro variant c hc
    exact lookupIn_eq_none c (getChars variant) 0 hc

theorem alphabet_lookup_invariants_witness :
    STANDARD_CHARS.getD 5 'A' = URLSAFE_CHARS.getD 5 'A' ∧
    createLookup Base64Variant.Standard
        ((getChars Base64Variant.Standard).getD 5 'A') = some 5 ∧
    createLookup Base64Variant.Standard '%' = none :=
  ⟨alphabet_lookup_invariants.2.1 5 (by decide) (by decide) (by decide),
   alphabet_lookup_invariants.2.2.2.1 Base64Variant.Standard 5 (by decide),
   alphabet_lookup_invariants.2.2.2.2 Base64Variant.Standard '%' (by decide)⟩

/-- C9: every character of any encoding is an alphabet symbol of the chosen
variant, `=`, `\r` or `\n`; with `padding = false` and `lineLength = 0` it
is an alphabet symbol only. -/
theorem encode_charset (b : List Nat) (opts : Base64Options) :
    (∀ c ∈ encode b opts,
        c ∈ getChars opts.variant ∨ c = '=' ∨ c = '\r' ∨ c = '\n') ∧
    (opts.padding = false → opts.lineLength = 0 →
      ∀ c ∈ encode b opts, c ∈ getChars opts.variant) := by
  obtain ⟨v, p, L⟩ := opts
  have h64 : (getChars v).length = 64 := by cases v <;> decide
  constructor
  · intro c hc
    exact encodeAux_forall (getChars v) p L
      (fun c => c ∈ getChars v ∨ c = '=' ∨ c = '\r' ∨ c = '\n')
      (fun n => Or.inl (getD_mod64_mem _ h64 n)) (Or.inr (Or.inl rfl))
      (Or.inr (Or.inr (Or.inl rfl))) (Or.inr (Or.inr (Or.inr rfl)))
      b [] 0 (by simp) c hc
  · intro hp hL c hc
    subst hp
    subst hL
    exact encodeAux_forall_nopad (getChars v) (fun c => c ∈ getChars v)
      (getD_mod64_mem _ h64) b [] 0 (by simp) c hc

theorem encode_charset_witness :
    ('T' ∈ getChars Base64Variant.Standard ∨ 'T' = '=' ∨ 'T' = '\r' ∨ 'T' = '\n') ∧
    'T' ∈ getChars Base64Variant.Standard :=
  ⟨(encode_charset [77] {}).1 'T' (by decide),
   (encode_charset [77] { padding := false }).2 rfl rfl 'T' (by decide)⟩

/-- C10: for any `lineLength = L > 0` that is not a multiple of 4 (any
variant and padding, input a whole number of 3-byte groups), terminators
fall only after whole 4-symbol groups, at the first count `≥ L`: every line
except the last holds exactly `4 * ceil(L/4)` symbols, which exceeds `L`
by between 1 and 3. -/
theorem encode_wrap_non_multiple (L : Nat) (b : List Nat) (variant : Base64Variant)
    (p : Bool) (hL : 0 < L) (hmod : L % 4 ≠ 0) :
    (∀ seg ∈ (lines (encode b
          { variant := variant, padding := p, lineLength := L })).dropLast,
        seg.length = 4 * ((L + 3) / 4)) ∧
    L < 4 * ((L + 3) / 4) ∧ 4 * ((L + 3) / 4) ≤ L + 3 := by
  have h64 : (getChars variant).length = 64 := by cases variant <;> decide
  have hcr : '\r' ∉ getChars variant := by cases variant <;> decide
  have hlf : '\n' ∉ getChars variant := by cases variant <;> decide
  refine ⟨?_, by omega, by omega⟩
  intro seg hseg
  exact encodeAux_wrapped_lines (getChars variant) p L h64 hcr hlf hL b [] 0
    rfl (by simp) rfl (by omega) seg (by simpa [encode] using hseg)

theorem encode_wrap_non_multiple_witness :
    (List.replicate 8 'A').length = 4 * ((6 + 3) / 4) :=
  (encode_wrap_non_multiple 6 (List.replicate 9 0) Base64Variant.Standard true
      (by decide) (by decide)).1 (List.replicate 8 'A') (by decide)

end Base64
